import Mathlib

/-!
Shallow embedding of `src/fastapi_rest_framework/routers/json_api_router.py`.

Rows, resources and related-resource descriptors become concrete structures.
Python's insertion-ordered `dict` becomes an association list whose assignment
operation updates an existing key in place (keeping its position) and appends a
fresh key at the end (`dictAssign`).  Python's `str.split(sep)` for the
one-character separators `","` and `"."` becomes `splitOnChar` on strings
represented as `List Char`.  The cyclic object graph of
`schema_with_relationships` objects becomes a lookup function from schema
identifiers (the finitely many schema classes, `Fin n`) to their relationship
mappings.
-/

namespace JsonApiRouter

/-- A fetched row: an opaque domain object with an `id` and attribute fields
(`Row` in the source is any pydantic `BaseModel` carrying an `id`). -/
structure Row where
  id : String
  fields : List (String × String)
deriving DecidableEq, Repr

/-- Attribute payload stored in a `JAResource`: either the raw row model
instance (what line 134 passes as `attributes=row` for primary data), or an
instance of a `Read` schema produced by `Read.from_orm` (what line 130 passes
for included objects).  The two are instances of different pydantic classes. -/
inductive AttrVal where
  | rowObj (r : Row)
  | readObj (a : List (String × String))
deriving DecidableEq, Repr

/-- `JAResource`: `{id, type, attributes}`. -/
structure JAResource where
  id : String
  type : String
  attributes : AttrVal
deriving DecidableEq, Repr

/-- Deduplication key: `(resource type name, id)`. -/
abbrev Key := String × String

/-- A Python string, as a list of characters (induction-friendly). -/
abbrev PyStr := List Char

/-- The resource metadata attached to a selected related object: its registered
`name` and its `Read.from_orm` projection, serializing a row to the attribute
payload of that resource's Read schema. -/
structure RelatedResource where
  name : String
  Read : Row → List (String × String)

/-- Element of `get_related`'s result: `{obj, resource}` (a "selected object"). -/
structure SelectedObj where
  obj : Row
  resource : RelatedResource

/-- Inclusions: a list of dotted paths, each an ordered list of segments. -/
abbrev Inclusions := List (List PyStr)

/-- The resource instance handed to `build_response`: registered `name`, the
`Read` projection, the request's parsed `inclusions`, and the collaborator
method `get_related(obj, inclusion)`. -/
structure Resource where
  name : String
  Read : Row → List (String × String)
  inclusions : Inclusions
  get_related : Row → List PyStr → List SelectedObj

/-- The resource class held by the router; `get_resource` instantiates it as
`self.resource_class(inclusions=inclusions)`. -/
structure ResourceClass where
  name : String
  Read : Row → List (String × String)
  get_related : Row → List PyStr → List SelectedObj

/-- `resource_class(inclusions=inclusions)`. -/
def ResourceClass.mk_resource (rc : ResourceClass) (inclusions : Inclusions) : Resource :=
  { name := rc.name, Read := rc.Read, inclusions := inclusions,
    get_related := rc.get_related }

/-- The `rows` argument of `build_response`: a single row or a list of rows. -/
inductive Rows where
  | one (r : Row)
  | many (rs : List Row)

/-- `isinstance(rows, list)`. -/
def Rows.isList : Rows → Bool
  | .one _ => false
  | .many _ => true

/-- `rows if isinstance(rows, list) else [rows]`. -/
def Rows.asList : Rows → List Row
  | .one r => [r]
  | .many rs => rs

/-- `JAResponseSingle` and `JAResponseList`: the two document shapes, each with
a `data` part and an `included` list. -/
inductive JAResponse where
  | single (data : JAResource) (included : List JAResource)
  | list (data : List JAResource) (included : List JAResource)
deriving DecidableEq, Repr

/-- The `included` component of a response. -/
def JAResponse.included : JAResponse → List JAResource
  | .single _ i => i
  | .list _ i => i

/-- The `data` component of a response, as a list (singleton for the single
shape). -/
def JAResponse.dataList : JAResponse → List JAResource
  | .single d _ => [d]
  | .list d _ => d

/-- Whether the response uses the list-document shape. -/
def JAResponse.isListDoc : JAResponse → Bool
  | .single _ _ => false
  | .list _ _ => true

/-- Python's insertion-ordered dict `included_resources`, as an association
list in key insertion order. -/
abbrev IncludedMap := List (Key × JAResource)

/-- Python dict assignment `d[k] = v`: when `k` is already present the stored
value is replaced in place (the key keeps its original position); otherwise the
new entry is appended at the end. -/
def dictAssign (d : IncludedMap) (k : Key) (v : JAResource) : IncludedMap :=
  if k ∈ d.map Prod.fst then
    d.map (fun p => if p.1 = k then (k, v) else p)
  else
    d ++ [(k, v)]

/-- `list(d.values())`: the values in key insertion order. -/
def dictValues (d : IncludedMap) : List JAResource :=
  d.map Prod.snd

/-- Dict lookup `d.get(k)`. -/
def dictLookup (d : IncludedMap) (k : Key) : Option JAResource :=
  (d.find? (fun p => decide (p.1 = k))).map Prod.snd

/-- The dedup key under which `build_response` stores a selected object:
`(related_resource.name, obj.id)` (source line 127). -/
def keyOf (so : SelectedObj) : Key :=
  (so.resource.name, so.obj.id)

/-- The `JAResource` built for a selected object (source lines 127-131):
`id=obj.id`, `type=related_resource.name`,
`attributes=related_resource.Read.from_orm(obj)`. -/
def jaResourceOf (so : SelectedObj) : JAResource :=
  { id := so.obj.id, type := so.resource.name,
    attributes := AttrVal.readObj (so.resource.Read so.obj) }

/-- The `included_resources` dict after the three nested loops of
`build_response` (rows, then `resource.inclusions`, then the selected objects
returned by `resource.get_related(obj=row, inclusion=inclusion)`). -/
def included_resources_of (resource : Resource) (rows : List Row) : IncludedMap :=
  rows.foldl (fun acc row =>
    resource.inclusions.foldl (fun acc inclusion =>
      (resource.get_related row inclusion).foldl (fun acc selected_obj =>
        dictAssign acc (keyOf selected_obj) (jaResourceOf selected_obj)) acc) acc) []

/-- `JSONAPIResourceRouter.build_response` (source lines 109-142). -/
def build_response (rows : Rows) (resource : Resource) : JAResponse :=
  let included_resources := included_resources_of resource (Rows.asList rows)
  let data := (Rows.asList rows).map (fun row =>
    { id := row.id, type := resource.name, attributes := AttrVal.rowObj row })
  if Rows.isList rows then
    JAResponse.list data (dictValues included_resources)
  else
    JAResponse.single
      (data.headD { id := "", type := "", attributes := AttrVal.readObj [] })
      (dictValues included_resources)

/-- Python `s.split(sep)` for a one-character separator: splits at every
occurrence, keeping empty pieces (`"a..b".split(".") == ["a", "", "b"]`,
`"".split(".") == [""]`). -/
def splitOnChar (sep : Char) : PyStr → List PyStr
  | [] => [[]]
  | c :: cs =>
    match splitOnChar sep cs with
    | [] => [[]]
    | p :: ps => if c = sep then [] :: p :: ps else (c :: p) :: ps

/-- The inclusion parsing in `JSONAPIResourceRouter.get_resource` (source lines
100-107): absent (`None`) or empty `include` yields `[]` (Python truthiness);
otherwise split on commas, then split each path on dots. -/
def get_resource_inclusions (includeParam : Option PyStr) : Inclusions :=
  match includeParam with
  | none => []
  | some s =>
    if s = [] then []
    else (splitOnChar ',' s).map (fun inclusion => splitOnChar '.' inclusion)

/-- `JSONAPIResourceRouter.get_resource`: builds the resource instance with the
parsed inclusions. -/
def get_resource (rc : ResourceClass) (includeParam : Option PyStr) : Resource :=
  rc.mk_resource (get_resource_inclusions includeParam)

/-- ASCII word character: the `[A-Za-z0-9_]` class of the spec's segment
grammar (the model restricts `\w` to ASCII). -/
def isWordChar (c : Char) : Bool :=
  c.isAlphanum || c = '_'

/-- One step of the deterministic automaton for the anchored regex of
`include_query`, `^([\w\.]+)(,[\w\.]+)*$` (source line 38).  State `true`: at
least one path character was read since the start or since the last comma
(accepting); state `false`: at the start or right after a comma.  `none` is the
dead state. -/
def includeRegexStep (st : Bool) (c : Char) : Option Bool :=
  if isWordChar c || c = '.' then some true
  else if c = ',' && st then some false
  else none

/-- Runs the `include_query` automaton over a string from a given state. -/
def includeRegexRun (st : Bool) : PyStr → Option Bool
  | [] => some st
  | c :: cs =>
    match includeRegexStep st c with
    | none => none
    | some st2 => includeRegexRun st2 cs

/-- Acceptance of a string by the boundary validation regex
`^([\w\.]+)(,[\w\.]+)*$` of `include_query`. -/
def include_query_accepts (s : PyStr) : Bool :=
  (includeRegexRun false s).getD false

/-- A relationship mapping: relationship name to target schema, in declaration
order.  Schemas are identified as elements of `Fin n`, the finitely many
resource schema classes of the registry; a schema's own relationships are
recovered through a lookup function `rels : Fin n → Relationships n`, which
plays the role of the (possibly cyclic) `schema_with_relationships` object
graph. -/
abbrev Relationships (n : Nat) := List (String × Fin n)

/-- The target schemas of a relationship mapping, in order: the
`relationship_info.schema_with_relationships.schema` of each value. -/
def relTargets {n : Nat} (relationships : Relationships n) : List (Fin n) :=
  relationships.map (fun p => p.2)

theorem sdiff_card_lt_of_not_mem {n : Nat} {visited : Finset (Fin n)} {schema : Fin n}
    (h : schema ∉ visited) :
    (Finset.univ \ insert schema visited).card < (Finset.univ \ visited).card := by
  apply Finset.card_lt_card
  rw [Finset.ssubset_iff_of_subset
    (Finset.sdiff_subset_sdiff (Finset.Subset.refl _) (Finset.subset_insert _ _))]
  refine ⟨schema, Finset.mem_sdiff.mpr ⟨Finset.mem_univ _, h⟩, fun hc => ?_⟩
  exact (Finset.mem_sdiff.mp hc).2 (Finset.mem_insert_self _ _)

/-- The recursive loop of `get_schemas_from_relationships` (source lines
41-58), operating on the worklist of target schemas of the current
relationship mapping.  The Python function mutates the shared `visited` set in
place; the embedding returns the final visited set alongside the accumulated
`schemas` list, with the proof that the set only grows (needed for
termination). -/
def gsfrAux {n : Nat} (rels : Fin n → Relationships n) :
    (work : List (Fin n)) → (visited : Finset (Fin n)) →
      List (Fin n) × { v : Finset (Fin n) // visited ⊆ v }
  | [], visited => ([], ⟨visited, Finset.Subset.refl visited⟩)
  | schema :: rest, visited =>
    if h : schema ∈ visited then
      gsfrAux rels rest visited
    else
      let r1 := gsfrAux rels (relTargets (rels schema)) (insert schema visited)
      let r2 := gsfrAux rels rest r1.2.1
      (schema :: (r1.1 ++ r2.1),
        ⟨r2.2.1, fun x hx => r2.2.2 (r1.2.2 (Finset.mem_insert_of_mem hx))⟩)
termination_by work visited => ((Finset.univ \ visited).card, work.length)
decreasing_by
  · apply Prod.Lex.right
    simp only [List.length_cons]
    omega
  · exact Prod.Lex.left _ _ (sdiff_card_lt_of_not_mem h)
  · apply Prod.Lex.left
    exact lt_of_le_of_lt
      (Finset.card_le_card (Finset.sdiff_subset_sdiff (Finset.Subset.refl _) r1.2.2))
      (sdiff_card_lt_of_not_mem h)

/-- `get_schemas_from_relationships(relationships)` with the default empty
visited set (as called from `get_included_schema`). -/
def get_schemas_from_relationships {n : Nat} (rels : Fin n → Relationships n)
    (relationships : Relationships n) : List (Fin n) :=
  (gsfrAux rels (relTargets relationships) ∅).1

/-- Reachability along declared relationship edges from a list of root target
schemas: the roots themselves, plus every target of a reachable schema's
relationships. -/
inductive ReachFrom {n : Nat} (rels : Fin n → Relationships n) (roots : List (Fin n)) :
    Fin n → Prop
  | base {s : Fin n} : s ∈ roots → ReachFrom rels roots s
  | step {t s : Fin n} : ReachFrom rels roots t → s ∈ relTargets (rels t) →
      ReachFrom rels roots s

/-! ## Derived descriptions of the included-resources computation -/

/-- One `get_related` call per (primary row, full inclusion path) pair, results
concatenated in loop order: rows outermost, then inclusion paths, then the
selected objects of each call. -/
def selected_of_calls (resource : Resource) (rows : List Row) : List SelectedObj :=
  rows.flatMap (fun row => resource.inclusions.flatMap (fun inclusion =>
    resource.get_related row inclusion))

/-- The dict-insertion step performed for one selected object. -/
def insertSelected (d : IncludedMap) (so : SelectedObj) : IncludedMap :=
  dictAssign d (keyOf so) (jaResourceOf so)

/-- First-occurrence deduplication of a key sequence: keeps each key at the
position of its first occurrence. -/
def firstKeys : List Key → List Key
  | [] => []
  | k :: ks => k :: (firstKeys ks).filter (fun k2 => decide (k2 ≠ k))

/-- Key accumulation step: append a key only when it is new. -/
def addKey (acc : List Key) (k : Key) : List Key :=
  if k ∈ acc then acc else acc ++ [k]

/-- Well-formedness of the included map: keys are pairwise distinct, and each
stored value's `(type, id)` agrees with its key. -/
def MapWF (d : IncludedMap) : Prop :=
  (d.map Prod.fst).Nodup ∧ ∀ p ∈ d, (p.2.type, p.2.id) = p.1

/-! ## Dict lemmas -/

theorem dictAssign_map_fst (d : IncludedMap) (k : Key) (v : JAResource) :
    (dictAssign d k v).map Prod.fst = addKey (d.map Prod.fst) k := by
  by_cases h : k ∈ d.map Prod.fst
  · simp only [dictAssign, addKey, if_pos h, List.map_map]
    apply List.map_congr_left
    intro p _
    by_cases hp : p.1 = k
    · simp [Function.comp, hp]
    · simp [Function.comp, hp]
  · simp [dictAssign, addKey, if_neg h]

theorem find?_map_update_self (d : IncludedMap) (k : Key) (v : JAResource)
    (h : k ∈ d.map Prod.fst) :
    (d.map (fun p => if p.1 = k then (k, v) else p)).find?
      (fun p => decide (p.1 = k)) = some (k, v) := by
  induction d with
  | nil => simp at h
  | cons p d ih =>
    by_cases hp : p.1 = k
    · simp only [List.map_cons, if_pos hp]
      rw [List.find?_cons_of_pos _ (by simp)]
    · have h2 : k ∈ d.map Prod.fst := by
        rw [List.map_cons] at h
        rcases List.mem_cons.mp h with hc | hc
        · exact absurd hc.symm hp
        · exact hc
      simp only [List.map_cons, if_neg hp]
      rw [List.find?_cons_of_neg _ (by simp [hp])]
      exact ih h2

theorem find?_map_update_ne (d : IncludedMap) (k k2 : Key) (v : JAResource)
    (hk : k2 ≠ k) :
    (d.map (fun p => if p.1 = k then (k, v) else p)).find?
      (fun p => decide (p.1 = k2)) = d.find? (fun p => decide (p.1 = k2)) := by
  induction d with
  | nil => rfl
  | cons p d ih =>
    by_cases hp : p.1 = k
    · have hm : ¬ (p.1 = k2) := fun hc => hk (hc.symm.trans hp)
      simp only [List.map_cons, if_pos hp]
      rw [List.find?_cons_of_neg _ (by simp only [decide_eq_true_eq]; exact fun hc => hk hc.symm),
        List.find?_cons_of_neg _ (by simp [hm]), ih]
    · simp only [List.map_cons, if_neg hp]
      by_cases hm : p.1 = k2
      · rw [List.find?_cons_of_pos _ (by simp [hm]), List.find?_cons_of_pos _ (by simp [hm])]
      · rw [List.find?_cons_of_neg _ (by simp [hm]), List.find?_cons_of_neg _ (by simp [hm]),
          ih]

theorem dictLookup_dictAssign (d : IncludedMap) (k k2 : Key) (v : JAResource) :
    dictLookup (dictAssign d k v) k2 = if k2 = k then some v else dictLookup d k2 := by
  by_cases h : k ∈ d.map Prod.fst
  · unfold dictAssign dictLookup
    rw [if_pos h]
    by_cases hk : k2 = k
    · rw [if_pos hk, hk, find?_map_update_self d k v h]
      rfl
    · rw [if_neg hk, find?_map_update_ne d k k2 v hk]
  · unfold dictAssign dictLookup
    rw [if_neg h, List.find?_append]
    have hnone : d.find? (fun p => decide (p.1 = k)) = none := by
      rw [List.find?_eq_none]
      intro p hp hc
      have hpk : p.1 = k := decide_eq_true_eq.mp hc
      exact h (hpk ▸ List.mem_map_of_mem Prod.fst hp)
    by_cases hk : k2 = k
    · rw [if_pos hk, hk, hnone, List.find?_cons_of_pos _ (by simp)]
      rfl
    · rw [if_neg hk]
      have hlast : List.find? (fun p => decide (p.1 = k2)) [(k, v)] = none := by
        rw [List.find?_cons_of_neg _
          (by simp only [decide_eq_true_eq]; exact fun hc => hk hc.symm)]
        rfl
      rw [hlast]
      simp

theorem mem_dictValues_dictAssign {d : IncludedMap} {k : Key} {v : JAResource}
    {x : JAResource} (hx : x ∈ dictValues (dictAssign d k v)) :
    x = v ∨ x ∈ dictValues d := by
  unfold dictValues at hx ⊢
  unfold dictAssign at hx
  by_cases h : k ∈ d.map Prod.fst
  · rw [if_pos h] at hx
    rcases List.mem_map.mp hx with ⟨p, hp, hsnd⟩
    rcases List.mem_map.mp hp with ⟨q, hq, hup⟩
    by_cases hq1 : q.1 = k
    · left
      rw [← hsnd, ← hup, if_pos hq1]
    · right
      rw [← hsnd, ← hup, if_neg hq1]
      exact List.mem_map_of_mem Prod.snd hq
  · rw [if_neg h, List.map_append] at hx
    rcases List.mem_append.mp hx with hq | hq
    · exact Or.inr hq
    · left
      simpa using hq

theorem MapWF_nil : MapWF [] :=
  ⟨List.nodup_nil, fun p hp => absurd hp (List.not_mem_nil p)⟩

theorem MapWF_dictAssign {d : IncludedMap} {k : Key} {v : JAResource}
    (hwf : MapWF d) (hkv : (v.type, v.id) = k) : MapWF (dictAssign d k v) := by
  obtain ⟨hnd, hag⟩ := hwf
  constructor
  · rw [dictAssign_map_fst]
    unfold addKey
    by_cases h : k ∈ d.map Prod.fst
    · rw [if_pos h]
      exact hnd
    · rw [if_neg h, List.nodup_append]
      refine ⟨hnd, List.nodup_singleton k, ?_⟩
      intro a ha hb
      rw [List.mem_singleton] at hb
      exact h (hb ▸ ha)
  · intro p hp
    unfold dictAssign at hp
    by_cases h : k ∈ d.map Prod.fst
    · rw [if_pos h] at hp
      rcases List.mem_map.mp hp with ⟨q, hq, hup⟩
      by_cases hq1 : q.1 = k
      · rw [← hup, if_pos hq1]
        exact hkv
      · rw [← hup, if_neg hq1]
        exact hag q hq
    · rw [if_neg h] at hp
      rcases List.mem_append.mp hp with hq | hq
      · exact hag p hq
      · rw [List.mem_singleton] at hq
        rw [hq]
        exact hkv

/-! ## Fold and flattening lemmas -/

theorem foldl_flatMap_eq {α β γ : Type} (f : α → List β) (g : γ → β → γ) :
    ∀ (l : List α) (d : γ),
      ((l.flatMap f).foldl g d) = l.foldl (fun d a => (f a).foldl g d) d := by
  intro l
  induction l with
  | nil => intro d; rfl
  | cons a l ih =>
    intro d
    rw [List.flatMap_cons, List.foldl_append, List.foldl_cons, ih]

theorem included_resources_eq_flat (resource : Resource) (rows : List Row) :
    included_resources_of resource rows =
      (selected_of_calls resource rows).foldl insertSelected [] := by
  unfold included_resources_of selected_of_calls insertSelected
  simp only [foldl_flatMap_eq]

theorem dictLookup_foldl_insertSelected :
    ∀ (l : List SelectedObj) (d : IncludedMap) (k : Key),
      dictLookup (l.foldl insertSelected d) k =
        match (l.filter (fun so => decide (keyOf so = k))).getLast? with
        | some so => some (jaResourceOf so)
        | none => dictLookup d k := by
  intro l
  induction l with
  | nil => intro d k; rfl
  | cons so l ih =>
    intro d k
    rw [List.foldl_cons, ih, List.filter_cons]
    by_cases hk : keyOf so = k
    · rw [if_pos (by simp [hk])]
      cases hfl : l.filter (fun so => decide (keyOf so = k)) with
      | nil =>
        simp only [List.getLast?_nil, List.getLast?_singleton]
        unfold insertSelected
        rw [dictLookup_dictAssign, if_pos hk.symm]
      | cons f0 fs =>
        rw [List.getLast?_cons_cons]
        cases hgl : (f0 :: fs).getLast? with
        | none => exact absurd (List.getLast?_eq_none_iff.mp hgl) (List.cons_ne_nil f0 fs)
        | some x => rfl
    · rw [if_neg (by simp [hk])]
      cases hfl : l.filter (fun so => decide (keyOf so = k)) with
      | nil =>
        simp only [List.getLast?_nil]
        unfold insertSelected
        rw [dictLookup_dictAssign, if_neg (fun hc => hk hc.symm)]
      | cons f0 fs => rfl

theorem map_fst_foldl_insertSelected :
    ∀ (l : List SelectedObj) (d : IncludedMap),
      (l.foldl insertSelected d).map Prod.fst = (l.map keyOf).foldl addKey (d.map Prod.fst) := by
  intro l
  induction l with
  | nil => intro d; rfl
  | cons so l ih =>
    intro d
    rw [List.foldl_cons, ih, List.map_cons, List.foldl_cons]
    unfold insertSelected
    rw [dictAssign_map_fst]

theorem foldl_addKey_eq_firstKeys_filter :
    ∀ (l : List Key) (acc : List Key),
      l.foldl addKey acc = acc ++ (firstKeys l).filter (fun k => decide (¬ k ∈ acc)) := by
  intro l
  induction l with
  | nil => intro acc; simp [firstKeys]
  | cons k ks ih =>
    intro acc
    rw [List.foldl_cons, show addKey acc k = if k ∈ acc then acc else acc ++ [k] from rfl]
    by_cases h : k ∈ acc
    · rw [if_pos h, ih]
      congr 1
      show (firstKeys ks).filter _ = (firstKeys (k :: ks)).filter _
      rw [firstKeys, List.filter_cons, if_neg (by simp [h]), List.filter_filter]
      apply List.filter_congr
      intro x hx
      by_cases hxa : x ∈ acc
      · simp [hxa]
      · have hxk : ¬ (x = k) := fun hc => hxa (hc ▸ h)
        simp [hxa, hxk]
    · rw [if_neg h, ih, firstKeys, List.filter_cons, if_pos (by simp [h]),
        List.append_assoc, List.singleton_append]
      congr 2
      rw [List.filter_filter]
      apply List.filter_congr
      intro x hx
      by_cases hxa : x ∈ acc <;> by_cases hxk : x = k <;>
        simp [hxa, hxk, List.mem_append]

theorem map_fst_flat_firstKeys (l : List SelectedObj) :
    (l.foldl insertSelected []).map Prod.fst = firstKeys (l.map keyOf) := by
  rw [map_fst_foldl_insertSelected, List.map_nil, foldl_addKey_eq_firstKeys_filter]
  simp

theorem MapWF_foldl_insertSelected :
    ∀ (l : List SelectedObj) (d : IncludedMap), MapWF d → MapWF (l.foldl insertSelected d) := by
  intro l
  induction l with
  | nil => intro d h; exact h
  | cons so l ih =>
    intro d h
    rw [List.foldl_cons]
    exact ih _ (MapWF_dictAssign h rfl)

theorem mem_dictValues_foldl_insertSelected :
    ∀ (l : List SelectedObj) (d : IncludedMap) (x : JAResource),
      x ∈ dictValues (l.foldl insertSelected d) →
      (∃ so ∈ l, x = jaResourceOf so) ∨ x ∈ dictValues d := by
  intro l
  induction l with
  | nil => intro d x hx; exact Or.inr hx
  | cons so l ih =>
    intro d x hx
    rw [List.foldl_cons] at hx
    rcases ih _ _ hx with ⟨so2, hso2, hx2⟩ | hx2
    · exact Or.inl ⟨so2, List.mem_cons_of_mem so hso2, hx2⟩
    · rcases mem_dictValues_dictAssign hx2 with hx3 | hx3
      · exact Or.inl ⟨so, List.mem_cons_self so l, hx3⟩
      · exact Or.inr hx3

theorem dictValues_keyproj (d : IncludedMap)
    (h : ∀ p ∈ d, (p.2.type, p.2.id) = p.1) :
    (dictValues d).map (fun e => (e.type, e.id)) = d.map Prod.fst := by
  unfold dictValues
  rw [List.map_map]
  apply List.map_congr_left
  intro p hp
  exact h p hp

/-! ## Unfolding lemmas for `build_response` -/

theorem build_response_included (rows : Rows) (resource : Resource) :
    (build_response rows resource).included =
      dictValues (included_resources_of resource (Rows.asList rows)) := by
  cases rows <;> rfl

theorem build_response_dataList (rows : Rows) (resource : Resource) :
    (build_response rows resource).dataList =
      (Rows.asList rows).map (fun row =>
        { id := row.id, type := resource.name, attributes := AttrVal.rowObj row }) := by
  cases rows <;> rfl

theorem build_response_isListDoc (rows : Rows) (resource : Resource) :
    (build_response rows resource).isListDoc = Rows.isList rows := by
  cases rows <;> rfl

/-! ## Correctness of the schema-closure traversal -/

theorem reachFrom_mono {n : Nat} {rels : Fin n → Relationships n}
    {roots roots2 : List (Fin n)} {s : Fin n}
    (hsub : ∀ x ∈ roots, x ∈ roots2) (h : ReachFrom rels roots s) :
    ReachFrom rels roots2 s := by
  induction h with
  | base hs => exact .base (hsub _ hs)
  | step _ ht ih => exact .step ih ht

theorem reachFrom_trans {n : Nat} {rels : Fin n → Relationships n}
    {roots : List (Fin n)} {t s : Fin n}
    (h1 : ReachFrom rels roots t) (h2 : ReachFrom rels (relTargets (rels t)) s) :
    ReachFrom rels roots s := by
  induction h2 with
  | base hs => exact .step h1 hs
  | step _ ht ih => exact .step ih ht

/-- Combined invariant of the traversal loop: the final visited set is the
initial one plus the returned schemas; the returned list has no duplicates and
avoids the initial visited set; every worklist schema ends up visited; the
relationship targets of every returned schema end up visited; and every
returned schema is reachable from the worklist. -/
def GsfrSpec {n : Nat} (rels : Fin n → Relationships n)
    (work : List (Fin n)) (visited : Finset (Fin n)) : Prop :=
  (gsfrAux rels work visited).2.1 = visited ∪ (gsfrAux rels work visited).1.toFinset ∧
  (gsfrAux rels work visited).1.Nodup ∧
  (∀ s ∈ (gsfrAux rels work visited).1, s ∉ visited) ∧
  (∀ s ∈ work, s ∈ (gsfrAux rels work visited).2.1) ∧
  (∀ s ∈ (gsfrAux rels work visited).1, ∀ t ∈ relTargets (rels s),
    t ∈ (gsfrAux rels work visited).2.1) ∧
  (∀ s ∈ (gsfrAux rels work visited).1, ReachFrom rels work s)

theorem gsfrAux_spec {n : Nat} (rels : Fin n → Relationships n)
    (work : List (Fin n)) (visited : Finset (Fin n)) : GsfrSpec rels work visited := by
  suffices key : ∀ (c : Nat) (work : List (Fin n)) (visited : Finset (Fin n)),
      (Finset.univ \ visited).card ≤ c → GsfrSpec rels work visited from
    key _ work visited (le_refl _)
  intro c
  induction c using Nat.strong_induction_on with
  | _ c ihc =>
    intro work
    induction work with
    | nil =>
      intro visited hc
      unfold GsfrSpec
      rw [gsfrAux]
      simp
    | cons schema rest ihw =>
      intro visited hc
      by_cases h : schema ∈ visited
      · obtain ⟨i1, i2, i3, i4, i5, i6⟩ := ihw visited hc
        unfold GsfrSpec
        rw [gsfrAux, dif_pos h]
        refine ⟨i1, i2, i3, ?_, i5, ?_⟩
        · intro s hs
          rcases List.mem_cons.mp hs with rfl | hs
          · exact (gsfrAux rels rest visited).2.2 h
          · exact i4 s hs
        · intro s hs
          exact reachFrom_mono (fun x hx => List.mem_cons_of_mem _ hx) (i6 s hs)
      · have hcard1 : (Finset.univ \ insert schema visited).card < c :=
          lt_of_lt_of_le (sdiff_card_lt_of_not_mem h) hc
        obtain ⟨a1, a2, a3, a4, a5, a6⟩ :=
          ihc _ hcard1 (relTargets (rels schema)) (insert schema visited) (le_refl _)
        have hv1 := (gsfrAux rels (relTargets (rels schema)) (insert schema visited)).2.2
        have hcard2 :
            (Finset.univ \
              (gsfrAux rels (relTargets (rels schema)) (insert schema visited)).2.1).card < c :=
          lt_of_le_of_lt
            (Finset.card_le_card (Finset.sdiff_subset_sdiff (Finset.Subset.refl _) hv1))
            hcard1
        obtain ⟨b1, b2, b3, b4, b5, b6⟩ :=
          ihc _ hcard2 rest
            (gsfrAux rels (relTargets (rels schema)) (insert schema visited)).2.1 (le_refl _)
        have hv2 := (gsfrAux rels rest
          (gsfrAux rels (relTargets (rels schema)) (insert schema visited)).2.1).2.2
        unfold GsfrSpec
        rw [gsfrAux, dif_neg h]
        refine ⟨?_, ?_, ?_, ?_, ?_, ?_⟩
        · rw [b1]
          ext x
          have hx : x ∈ (gsfrAux rels (relTargets (rels schema)) (insert schema visited)).2.1 ↔
              (x = schema ∨ x ∈ visited ∨
                x ∈ (gsfrAux rels (relTargets (rels schema)) (insert schema visited)).1) := by
            rw [a1]
            simp [Finset.mem_union, Finset.mem_insert, List.mem_toFinset]
          simp only [Finset.mem_union, List.mem_toFinset, List.toFinset_cons,
            List.toFinset_append, Finset.mem_insert, List.mem_cons, List.mem_append] at hx ⊢
          tauto
        · rw [List.nodup_cons, List.nodup_append]
          refine ⟨?_, a2, b2, ?_⟩
          · intro hmem
            rcases List.mem_append.mp hmem with hs | hs
            · exact a3 schema hs (Finset.mem_insert_self _ _)
            · exact b3 schema hs (hv1 (Finset.mem_insert_self _ _))
          · intro x hxa hxb
            apply b3 x hxb
            rw [a1]
            exact Finset.mem_union_right _ (List.mem_toFinset.mpr hxa)
        · intro s hs
          rcases List.mem_cons.mp hs with rfl | hs
          · exact h
          · rcases List.mem_append.mp hs with hs | hs
            · exact fun hv => a3 s hs (Finset.mem_insert_of_mem hv)
            · exact fun hv => b3 s hs (hv1 (Finset.mem_insert_of_mem hv))
        · intro s hs
          rcases List.mem_cons.mp hs with rfl | hs
          · exact hv2 (hv1 (Finset.mem_insert_self _ _))
          · exact b4 s hs
        · intro s hs t ht
          rcases List.mem_cons.mp hs with rfl | hs
          · exact hv2 (a4 t ht)
          · rcases List.mem_append.mp hs with hs | hs
            · exact hv2 (a5 s hs t ht)
            · exact b5 s hs t ht
        · intro s hs
          rcases List.mem_cons.mp hs with rfl | hs
          · exact .base (List.mem_cons_self _ _)
          · rcases List.mem_append.mp hs with hs | hs
            · exact reachFrom_trans (.base (List.mem_cons_self _ _)) (a6 s hs)
            · exact reachFrom_mono (fun x hx => List.mem_cons_of_mem _ hx) (b6 s hs)

/-! ## Split and regex lemmas -/

theorem splitOnChar_ne_nil (sep : Char) : ∀ (s : PyStr), splitOnChar sep s ≠ [] := by
  intro s
  cases s with
  | nil => exact List.cons_ne_nil _ _
  | cons c cs =>
    cases hsp : splitOnChar sep cs with
    | nil =>
      simp only [splitOnChar, hsp]
      exact List.cons_ne_nil _ _
    | cons p ps =>
      simp only [splitOnChar, hsp]
      by_cases hc : c = sep
      · rw [if_pos hc]; exact List.cons_ne_nil _ _
      · rw [if_neg hc]; exact List.cons_ne_nil _ _

theorem mem_splitOnChar (sep : Char) :
    ∀ (s : PyStr), ∀ seg ∈ splitOnChar sep s, ∀ c ∈ seg, c ∈ s ∧ ¬ c = sep := by
  intro s
  induction s with
  | nil =>
    intro seg hseg c hc
    rw [splitOnChar] at hseg
    rw [List.mem_singleton] at hseg
    subst hseg
    cases hc
  | cons c0 cs ih =>
    intro seg hseg c hc
    cases hsp : splitOnChar sep cs with
    | nil => exact absurd hsp (splitOnChar_ne_nil sep cs)
    | cons p ps =>
      simp only [splitOnChar, hsp] at hseg
      by_cases hc0 : c0 = sep
      · rw [if_pos hc0] at hseg
        rcases List.mem_cons.mp hseg with rfl | hseg2
        · cases hc
        · have := ih seg (hsp ▸ hseg2) c hc
          exact ⟨List.mem_cons_of_mem _ this.1, this.2⟩
      · rw [if_neg hc0] at hseg
        rcases List.mem_cons.mp hseg with rfl | hseg2
        · rcases List.mem_cons.mp hc with rfl | hc2
          · exact ⟨List.mem_cons_self _ _, hc0⟩
          · have := ih p (hsp ▸ List.mem_cons_self p ps) c hc2
            exact ⟨List.mem_cons_of_mem _ this.1, this.2⟩
        · have := ih seg (hsp ▸ List.mem_cons_of_mem p hseg2) c hc
          exact ⟨List.mem_cons_of_mem _ this.1, this.2⟩

theorem includeRegexRun_parts :
    ∀ (s : PyStr) (st : Bool), includeRegexRun st s = some true →
      (∀ p ∈ splitOnChar ',' s, ∀ c ∈ p, (isWordChar c || c = '.') = true) ∧
      (st = true → ∀ p ∈ (splitOnChar ',' s).tail, p ≠ []) ∧
      (st = false → ∀ p ∈ splitOnChar ',' s, p ≠ []) := by
  intro s
  induction s with
  | nil =>
    intro st hrun
    rw [includeRegexRun] at hrun
    have hst : st = true := by
      cases st
      · cases hrun
      · rfl
    subst hst
    refine ⟨?_, ?_, ?_⟩
    · intro p hp c hc
      rw [splitOnChar, List.mem_singleton] at hp
      subst hp
      cases hc
    · intro _ p hp
      rw [splitOnChar] at hp
      cases hp
    · intro hfalse
      cases hfalse
  | cons c0 cs ih =>
    intro st hrun
    rw [includeRegexRun] at hrun
    cases hstep : includeRegexStep st c0 with
    | none => rw [hstep] at hrun; cases hrun
    | some st2 =>
      rw [hstep] at hrun
      by_cases hw : (isWordChar c0 || c0 = '.') = true
      · -- path character: automaton moves to the accepting in-path state
        have hst2 : st2 = true := by
          rw [includeRegexStep, if_pos hw] at hstep
          cases hstep
          rfl
        subst hst2
        obtain ⟨j1, j2, j3⟩ := ih true hrun
        cases hsp : splitOnChar ',' cs with
        | nil => exact absurd hsp (splitOnChar_ne_nil ',' cs)
        | cons p ps =>
          have hc0 : ¬ c0 = ',' := by
            intro hc
            subst hc
            simp [isWordChar] at hw
          simp only [splitOnChar, hsp]
          rw [if_neg hc0]
          refine ⟨?_, ?_, ?_⟩
          · intro q hq c hc
            rcases List.mem_cons.mp hq with rfl | hq2
            · rcases List.mem_cons.mp hc with rfl | hc2
              · exact hw
              · exact j1 p (hsp ▸ List.mem_cons_self p ps) c hc2
            · exact j1 q (hsp ▸ List.mem_cons_of_mem p hq2) c hc
          · intro _ q hq
            exact j2 rfl q (by rw [hsp]; exact hq)
          · intro _ q hq
            rcases List.mem_cons.mp hq with rfl | hq2
            · exact List.cons_ne_nil _ _
            · exact j2 rfl q (by rw [hsp]; exact hq2)
      · -- the only other live transition is a comma from the in-path state
        have hcomma : c0 = ',' ∧ st = true ∧ st2 = false := by
          rw [includeRegexStep, if_neg hw] at hstep
          by_cases hc : (c0 = ',' && st) = true
          · rw [if_pos hc] at hstep
            cases hstep
            simp only [Bool.and_eq_true, decide_eq_true_eq] at hc
            exact ⟨hc.1, hc.2, rfl⟩
          · rw [if_neg hc] at hstep
            cases hstep
        obtain ⟨hc0, hst, hst2⟩ := hcomma
        subst hc0
        subst hst
        subst hst2
        obtain ⟨j1, j2, j3⟩ := ih false hrun
        cases hsp : splitOnChar ',' cs with
        | nil => exact absurd hsp (splitOnChar_ne_nil ',' cs)
        | cons p ps =>
          simp only [splitOnChar, hsp, if_true]
          refine ⟨?_, ?_, ?_⟩
          · intro q hq c hc
            rcases List.mem_cons.mp hq with rfl | hq2
            · cases hc
            · exact j1 q (hsp ▸ hq2) c hc
          · intro _ q hq
            exact j3 rfl q (by rw [hsp]; exact hq)
          · intro hfalse
            cases hfalse

/-! ## Remaining helper lemmas -/

theorem dictLookup_of_mem {d : IncludedMap} (hnd : (d.map Prod.fst).Nodup)
    {p : Key × JAResource} (hp : p ∈ d) : dictLookup d p.1 = some p.2 := by
  induction d with
  | nil => cases hp
  | cons q d ih =>
    rw [List.map_cons, List.nodup_cons] at hnd
    rcases List.mem_cons.mp hp with rfl | hp2
    · unfold dictLookup
      rw [List.find?_cons_of_pos _ (by simp)]
      rfl
    · have hne : ¬ (q.1 = p.1) := by
        intro hc
        exact hnd.1 (hc ▸ List.mem_map_of_mem Prod.fst hp2)
      unfold dictLookup
      rw [List.find?_cons_of_neg _ (by simp [hne])]
      exact ih hnd.2 hp2

theorem foldl_const {α β : Type} : ∀ (l : List α) (d : β),
    l.foldl (fun acc _ => acc) d = d := by
  intro l
  induction l with
  | nil => intro d; rfl
  | cons a l ih => intro d; rw [List.foldl_cons]; exact ih d

theorem flatMap_congr_mem {α β : Type} {l : List α} {f g : α → List β}
    (h : ∀ a ∈ l, f a = g a) : l.flatMap f = l.flatMap g := by
  induction l with
  | nil => rfl
  | cons a l ih =>
    rw [List.flatMap_cons, List.flatMap_cons, h a (List.mem_cons_self a l),
      ih (fun x hx => h x (List.mem_cons_of_mem a hx))]

/-! ## Concrete fixtures -/

/-- A primary row with an attribute the read projection drops. -/
def rowPost : Row :=
  { id := "1", fields := [("title", "t"), ("secret", "s")] }

/-- A related row discovered through inclusion paths. -/
def rowAuthor : Row :=
  { id := "7", fields := [("name", "n")] }

/-- A related-resource descriptor whose read projection reports the payload of
the first discovery path. -/
def relAuthorFirst : RelatedResource :=
  { name := "author", Read := fun _ => [("name", "first")] }

/-- The same related resource type reached through a second path, with a
different attribute payload. -/
def relAuthorSecond : RelatedResource :=
  { name := "author", Read := fun _ => [("name", "second")] }

/-- A resource requesting two inclusion paths that discover the same
`(type, id)` key with different payloads; any other path yields nothing. -/
def resLastWrite : Resource :=
  { name := "post", Read := fun _ => [("title", "t")],
    inclusions := [[['a']], [['b']]],
    get_related := fun _ inclusion =>
      if inclusion = [['a']] then [{ obj := rowAuthor, resource := relAuthorFirst }]
      else if inclusion = [['b']] then [{ obj := rowAuthor, resource := relAuthorSecond }]
      else [] }

/-- A resource with no inclusions; its read projection drops the `secret`
field of `rowPost`. -/
def resPlain : Resource :=
  { name := "post", Read := fun _ => [("title", "t")], inclusions := [],
    get_related := fun _ _ => [] }

/-- A resource requesting only a path naming a relationship it does not have;
`get_related` resolves it to no related objects. -/
def resUnknownPath : Resource :=
  { name := "post", Read := fun _ => [("title", "t")],
    inclusions := [[['n', 'o', 'p', 'e']]],
    get_related := fun _ _ => [] }

/-! ## Claims -/

/-- Claim C1: for every call to `build_response`, whatever rows and inclusion
paths are given and however often `get_related` returns the same related
object, the resulting `included` array contains at most one entry per
`(resource type name, id)` key. -/
theorem claim1_included_unique_per_key (resource : Resource) (rows : Rows) :
    ((build_response rows resource).included.map (fun e => (e.type, e.id))).Nodup := by
  rw [build_response_included, included_resources_eq_flat]
  have hwf := MapWF_foldl_insertSelected (selected_of_calls resource (Rows.asList rows)) []
    MapWF_nil
  rw [dictValues_keyproj _ hwf.2]
  exact hwf.1

/-- Claim C2, counterexample: two discoveries of the key `("author", "7")`
with different payloads; the entry kept in `included` carries the payload of
the second (later) discovery, not the first, so first-write-wins is false. -/
theorem claim2_counterexample :
    (build_response (Rows.one rowPost) resLastWrite).included =
      [{ id := "7", type := "author", attributes := AttrVal.readObj [("name", "second")] }] ∧
    ({ id := "7", type := "author", attributes := AttrVal.readObj [("name", "second")] }
        : JAResource) ≠
      { id := "7", type := "author", attributes := AttrVal.readObj [("name", "first")] } := by
  decide

/-- Claim C2, amended: when several discoveries share a `(type, id)` key, the
dict assignment overwrites the stored payload, so every entry of the
`included` output is the `JAResource` built from the last discovery of its key
(last-write wins for the payload; the key's position is still its first
discovery, see C7). -/
theorem claim2_last_write_wins (resource : Resource) (rows : Rows) :
    ∀ e ∈ (build_response rows resource).included,
      ((selected_of_calls resource (Rows.asList rows)).filter
        (fun so => decide (keyOf so = (e.type, e.id)))).getLast?.map jaResourceOf = some e := by
  intro e he
  rw [build_response_included, included_resources_eq_flat] at he
  have hwf := MapWF_foldl_insertSelected (selected_of_calls resource (Rows.asList rows)) []
    MapWF_nil
  unfold dictValues at he
  rcases List.mem_map.mp he with ⟨p, hp, hsnd⟩
  have hkey : (e.type, e.id) = p.1 := by
    rw [← hsnd]
    exact hwf.2 p hp
  have hlook := dictLookup_of_mem hwf.1 hp
  rw [dictLookup_foldl_insertSelected] at hlook
  rw [hkey]
  cases hfl : (((selected_of_calls resource (Rows.asList rows))).filter
      (fun so => decide (keyOf so = p.1))).getLast? with
  | none =>
    rw [hfl] at hlook
    exact Option.noConfusion hlook
  | some so =>
    rw [hfl] at hlook
    have h2 : jaResourceOf so = p.2 := Option.some.inj hlook
    show some (jaResourceOf so) = some e
    rw [h2, hsnd]

/-- Claim C2, amended, witness at the concrete last-write fixture. -/
theorem claim2_last_write_wins_witness :
    ((selected_of_calls resLastWrite (Rows.asList (Rows.one rowPost))).filter
      (fun so => decide (keyOf so = ("author", "7")))).getLast?.map jaResourceOf =
    some { id := "7", type := "author", attributes := AttrVal.readObj [("name", "second")] } :=
  claim2_last_write_wins resLastWrite (Rows.one rowPost)
    { id := "7", type := "author", attributes := AttrVal.readObj [("name", "second")] }
    (by decide)

/-- Claim C3: for every relationship graph, cyclic ones included,
`get_schemas_from_relationships` started with the empty visited set terminates
(it is a total function) and returns a list that contains each schema
reachable from the root's relationships exactly once: no duplicates, none
missing. -/
theorem claim3_closure_each_reachable_once {n : Nat} (rels : Fin n → Relationships n)
    (relationships : Relationships n) :
    (get_schemas_from_relationships rels relationships).Nodup ∧
    ∀ s : Fin n, s ∈ get_schemas_from_relationships rels relationships ↔
      ReachFrom rels (relTargets relationships) s := by
  obtain ⟨s1, s2, s3, s4, s5, s6⟩ := gsfrAux_spec rels (relTargets relationships) ∅
  have hmem : ∀ x, x ∈ (gsfrAux rels (relTargets relationships) ∅).2.1 →
      x ∈ get_schemas_from_relationships rels relationships := by
    intro x hx
    rw [s1] at hx
    rw [Finset.empty_union, List.mem_toFinset] at hx
    exact hx
  refine ⟨s2, fun s => ⟨fun hs => s6 s hs, fun hr => ?_⟩⟩
  induction hr with
  | base hs => exact hmem _ (s4 _ hs)
  | step _ ht ih => exact hmem _ (s5 _ ih _ ht)

/-- Claim C4, counterexample: the boundary regex accepts the string `"."`,
whose single comma-path splits on dots into two empty segments, so paths with
empty segments do reach the core. -/
theorem claim4_counterexample :
    include_query_accepts ['.'] = true ∧
    splitOnChar ',' ['.'] = [['.']] ∧
    splitOnChar '.' ['.'] = [[], []] := by
  decide

/-- Claim C4, amended: every string accepted by the boundary regex splits on
commas into nonempty paths made only of word characters and dots, and every
dot-segment of those paths (the segments `get_resource` produces) consists
only of word characters; segments may however be empty, since the regex also
accepts strings such as `"."`. -/
theorem claim4_accepted_segments_wordchar (s : PyStr)
    (hs : include_query_accepts s = true) :
    (∀ p ∈ splitOnChar ',' s, p ≠ [] ∧
      ∀ seg ∈ splitOnChar '.' p, ∀ c ∈ seg, isWordChar c = true) ∧
    (∀ inclusion ∈ get_resource_inclusions (some s), ∀ seg ∈ inclusion,
      ∀ c ∈ seg, isWordChar c = true) := by
  have hrun : includeRegexRun false s = some true := by
    unfold include_query_accepts at hs
    cases hr : includeRegexRun false s with
    | none => rw [hr] at hs; cases hs
    | some b =>
      rw [hr] at hs
      cases b
      · cases hs
      · rfl
  obtain ⟨j1, _, j3⟩ := includeRegexRun_parts s false hrun
  have hpart : ∀ p ∈ splitOnChar ',' s, p ≠ [] ∧
      ∀ seg ∈ splitOnChar '.' p, ∀ c ∈ seg, isWordChar c = true := by
    intro p hp
    refine ⟨j3 rfl p hp, ?_⟩
    intro seg hseg c hc
    have hcp := mem_splitOnChar '.' p seg hseg c hc
    have hcw := j1 p hp c hcp.1
    simp only [Bool.or_eq_true, decide_eq_true_eq] at hcw
    rcases hcw with hok | hdot
    · exact hok
    · exact absurd hdot hcp.2
  refine ⟨hpart, ?_⟩
  intro inclusion hinc seg hseg c hc
  rw [show get_resource_inclusions (some s) =
      (if s = [] then [] else
        (splitOnChar ',' s).map (fun inclusion => splitOnChar '.' inclusion)) from rfl] at hinc
  have hne : ¬ s = [] := by
    intro hnil
    subst hnil
    cases hs
  rw [if_neg hne] at hinc
  rcases List.mem_map.mp hinc with ⟨p, hp, hpeq⟩
  exact (hpart p hp).2 seg (hpeq ▸ hseg) c hc

/-- Claim C4, amended, witness at the accepted string `"a.b,c"`. -/
theorem claim4_accepted_segments_wordchar_witness :
    (∀ p ∈ splitOnChar ',' ['a', '.', 'b', ',', 'c'], p ≠ [] ∧
      ∀ seg ∈ splitOnChar '.' p, ∀ c ∈ seg, isWordChar c = true) ∧
    (∀ inclusion ∈ get_resource_inclusions (some ['a', '.', 'b', ',', 'c']),
      ∀ seg ∈ inclusion, ∀ c ∈ seg, isWordChar c = true) :=
  claim4_accepted_segments_wordchar ['a', '.', 'b', ',', 'c'] (by decide)

/-- Claim C5: `build_response` selects the document shape purely from whether
the rows argument is a list: a single row yields the single-document shape
with its one resource object, and a list input, even of length 1, yields the
list-document shape with one resource object per row in input order. -/
theorem claim5_shape_from_row_kind (resource : Resource) (rows : Rows) :
    (build_response rows resource).isListDoc = Rows.isList rows ∧
    (build_response rows resource).dataList = (Rows.asList rows).map (fun row =>
      { id := row.id, type := resource.name, attributes := AttrVal.rowObj row }) :=
  ⟨build_response_isListDoc rows resource, build_response_dataList rows resource⟩

/-- Claim C6, counterexample: `build_response` places the raw row object under
`data.attributes` (line 134 passes `attributes=row`), which differs from the
row serialized through the resource's Read projection — here the projection
drops the `secret` field. -/
theorem claim6_counterexample :
    (build_response (Rows.one rowPost) resPlain).dataList =
      [{ id := "1", type := "post", attributes := AttrVal.rowObj rowPost }] ∧
    AttrVal.rowObj rowPost ≠ AttrVal.readObj (resPlain.Read rowPost) := by
  decide

/-- Claim C6, amended: the resource object `build_response` places under
`data` has `id` equal to the row's id and `type` equal to the registered
resource name, but its `attributes` is the row object itself, not the
`Read`-projected payload; only included objects are built through
`Read.from_orm` (the read projection of primary data is applied downstream by
the declared response model, outside `build_response`). -/
theorem claim6_data_raw_included_projected (resource : Resource) (rows : Rows) :
    (build_response rows resource).dataList = (Rows.asList rows).map (fun row =>
      { id := row.id, type := resource.name, attributes := AttrVal.rowObj row }) ∧
    ∀ e ∈ (build_response rows resource).included,
      ∃ so ∈ selected_of_calls resource (Rows.asList rows), e = jaResourceOf so := by
  refine ⟨build_response_dataList rows resource, ?_⟩
  intro e he
  rw [build_response_included, included_resources_eq_flat] at he
  rcases mem_dictValues_foldl_insertSelected _ _ _ he with ⟨so, hso, he2⟩ | he2
  · exact ⟨so, hso, he2⟩
  · exact absurd he2 (by simp [dictValues])

/-- Claim C6, amended, witness: concrete instantiation on the last-write
fixture, whose one included entry is the `JAResource` of a selected object. -/
theorem claim6_data_raw_included_projected_witness :
    ∃ so ∈ selected_of_calls resLastWrite (Rows.asList (Rows.one rowPost)),
      ({ id := "7", type := "author", attributes := AttrVal.readObj [("name", "second")] }
        : JAResource) = jaResourceOf so :=
  (claim6_data_raw_included_projected resLastWrite (Rows.one rowPost)).2
    { id := "7", type := "author", attributes := AttrVal.readObj [("name", "second")] }
    (by decide)

/-- Claim C7: the `included` array lists entries in first-discovered order:
its key sequence is exactly the first-occurrence deduplication of the key
sequence of all discoveries in loop order, so a rediscovered key keeps the
position of its first discovery. -/
theorem claim7_included_first_discovered_order (resource : Resource) (rows : Rows) :
    (build_response rows resource).included.map (fun e => (e.type, e.id)) =
      firstKeys ((selected_of_calls resource (Rows.asList rows)).map keyOf) := by
  rw [build_response_included, included_resources_eq_flat]
  have hwf := MapWF_foldl_insertSelected (selected_of_calls resource (Rows.asList rows)) []
    MapWF_nil
  rw [dictValues_keyproj _ hwf.2]
  exact map_fst_flat_firstKeys _

/-- Claim C8: with an absent or empty `include` parameter `get_resource`
produces no inclusions, `included` is then the empty sequence, and the `data`
part (and the document shape) of `build_response` does not depend on the
inclusions at all. -/
theorem claim8_empty_include_identity (rc : ResourceClass) (rows : Rows)
    (i1 i2 : Inclusions) :
    get_resource_inclusions none = [] ∧
    get_resource_inclusions (some []) = [] ∧
    (build_response rows (get_resource rc none)).included = [] ∧
    (build_response rows (rc.mk_resource i1)).dataList =
      (build_response rows (rc.mk_resource i2)).dataList ∧
    (build_response rows (rc.mk_resource i1)).isListDoc =
      (build_response rows (rc.mk_resource i2)).isListDoc := by
  refine ⟨rfl, rfl, ?_, ?_, ?_⟩
  · rw [build_response_included]
    show dictValues (included_resources_of (rc.mk_resource []) (Rows.asList rows)) = []
    unfold included_resources_of ResourceClass.mk_resource
    rw [show (Rows.asList rows).foldl
        (fun acc row => List.foldl _ acc ([] : Inclusions)) ([] : IncludedMap) =
        (Rows.asList rows).foldl (fun acc _ => acc) ([] : IncludedMap) from rfl,
      foldl_const]
    rfl
  · rw [build_response_dataList, build_response_dataList]
    rfl
  · rw [build_response_isListDoc, build_response_isListDoc]

/-- Claim C9: when `get_related` resolves the requested paths to no related
objects (as it does for a path naming a relationship absent from the resource
type), `build_response` raises no error and those paths contribute nothing:
appending such paths to a request leaves `included` unchanged, and a request
consisting only of such paths yields an empty `included`. -/
theorem claim9_unknown_relationship_silent (resource : Resource) (rows : Rows) :
    ((∀ row ∈ Rows.asList rows, ∀ inclusion ∈ resource.inclusions,
        resource.get_related row inclusion = []) →
      (build_response rows resource).included = []) ∧
    (∀ extra : Inclusions,
      (∀ row ∈ Rows.asList rows, ∀ p ∈ extra, resource.get_related row p = []) →
      (build_response rows
          { resource with inclusions := resource.inclusions ++ extra }).included =
        (build_response rows resource).included) := by
  constructor
  · intro h
    rw [build_response_included, included_resources_eq_flat]
    have hnil : selected_of_calls resource (Rows.asList rows) = [] := by
      unfold selected_of_calls
      rw [List.flatMap_eq_nil_iff]
      intro row hrow
      rw [List.flatMap_eq_nil_iff]
      intro inclusion hinc
      exact h row hrow inclusion hinc
    rw [hnil]
    rfl
  · intro extra h
    rw [build_response_included, included_resources_eq_flat,
      build_response_included, included_resources_eq_flat]
    have hsel : selected_of_calls
        { resource with inclusions := resource.inclusions ++ extra } (Rows.asList rows) =
        selected_of_calls resource (Rows.asList rows) := by
      unfold selected_of_calls
      apply flatMap_congr_mem
      intro row hrow
      show (resource.inclusions ++ extra).flatMap _ = _
      rw [List.flatMap_append]
      have hex : extra.flatMap (fun inclusion => resource.get_related row inclusion) = [] := by
        rw [List.flatMap_eq_nil_iff]
        intro p hp
        exact h row hrow p hp
      rw [hex, List.append_nil]
    rw [hsel]

/-- Claim C9, witness: a request made only of an unknown-relationship path
yields empty `included`, and appending such a path to a real request leaves
`included` unchanged. -/
theorem claim9_unknown_relationship_silent_witness :
    (build_response (Rows.one rowPost) resUnknownPath).included = [] ∧
    (build_response (Rows.one rowPost)
        { resLastWrite with inclusions := resLastWrite.inclusions ++ [[['z']]] }).included =
      (build_response (Rows.one rowPost) resLastWrite).included :=
  ⟨(claim9_unknown_relationship_silent resUnknownPath (Rows.one rowPost)).1
      (fun row _ inclusion _ => rfl),
    (claim9_unknown_relationship_silent resLastWrite (Rows.one rowPost)).2 [[['z']]]
      (by
        intro row hrow p hp
        rw [List.mem_singleton] at hp
        subst hp
        rfl)⟩

/-- Claim C10: the included entries computed by `build_response` are exactly
those obtained from one `get_related(row, path)` call per (primary row, full
inclusion path) pair, inserted under their `(resource name, id)` keys in loop
order; the core performs no per-segment recursion, so a multi-segment path
contributes precisely what `get_related` returns for the whole path. -/
theorem claim10_included_from_whole_path_calls (resource : Resource) (rows : Rows) :
    (build_response rows resource).included =
      dictValues ((selected_of_calls resource (Rows.asList rows)).foldl insertSelected []) := by
  rw [build_response_included, included_resources_eq_flat]

end JsonApiRouter
